import Mathlib

/-!
A shallow embedding of the latent-prefix-cache subsystem
(`mii/batching/latent_storaging/storage_backend.py` and
`mii/batching/latent_storaging/storaging_engine.py`).

Modelling conventions:
* A token sequence (1-D integer tensor) is a `List Nat` of token ids.
* A latent tensor is kept abstract along its leading axis and explicit along
  the sequence-position axis (dim 1), since the engine only ever slices and
  concatenates along dim 1: `Latent α := List α`, one `α` per sequence
  position (one "column" of the tensor).
* Machine bytes are `Nat` values `< 256`; `numpy.tobytes()` on an int64 token
  tensor is `tokenBytes` (8-byte little-endian per token).
* `hashlib.sha256(...).hexdigest()` is modelled as an abstract function
  `H : List Nat → κ` on the byte string; collision resistance is expressed as
  the hypothesis `Function.Injective H` where a claim needs it.
* The redis store is a list of (key, value) bindings; `SET` prepends and `GET`
  returns the most recent binding, which is observably the same as overwrite.
* Fallible parsing returns `Option`.
-/

/-- Token sequences: ordered lists of non-negative token ids. -/
abbrev Tokens := List Nat

/-- A latent tensor, abstract along every axis except the sequence-position
axis (dim 1): one `α` per position.  `value[:, a:b]` is `(drop a).take (b-a)`
and `torch.concat(_, dim=1)` is `List.flatten`. -/
abbrev Latent (α : Type) := List α

/-- The key-value state of the storage medium (redis database): bindings,
most recent first. -/
abbrev Store (κ β : Type) := List (κ × β)

/-- `w`-byte little-endian encoding of `n` (the byte layout of a fixed-width
integer, as produced by `numpy.tobytes`). -/
def natLE : Nat → Nat → List Nat
  | 0, _ => []
  | w + 1, n => n % 256 :: natLE w (n / 256)

/-- Value of a little-endian byte string. -/
def leVal : List Nat → Nat
  | [] => 0
  | b :: bs => b + 256 * leVal bs

/-- Split a byte string into fixed-width groups and decode each group
(little-endian); the inverse direction of flattening `natLE w` blocks. -/
def leChunks (w : Nat) (bs : List Nat) : List Nat :=
  if h : bs.isEmpty ∨ w = 0 then [] else
    leVal (bs.take w) :: leChunks w (bs.drop w)
termination_by bs.length
decreasing_by
  simp only [List.isEmpty_iff, not_or] at h
  have h1 : bs.length ≠ 0 := fun hc => h.1 (List.length_eq_zero.mp hc)
  simp only [List.length_drop]
  omega

/-- `input_token_chunk.cpu().numpy().tobytes()`: the raw fixed-width (int64,
little-endian) byte representation of a token tensor. -/
def tokenBytes (toks : Tokens) : List Nat :=
  (toks.map (natLE 8)).flatten

/-- `StorageBackend._hashing`: the content address of a token chunk prefix is
the digest of its raw bytes.  The cryptographic digest
(`hashlib.sha256(...).hexdigest()`) is the abstract parameter `H`. -/
def hashing (H : List Nat → κ) (inputTokenChunk : Tokens) : κ :=
  H (tokenBytes inputTokenChunk)

/-- The tensor layout handled by the codec: a 2-D tensor of 16-bit elements.
`data` is the flat row-major element list; each element is the raw 16-bit
pattern of the value (for a 16-bit floating point dtype, its bit pattern), so
equality of `data` is bit-identity. -/
structure Tensor16 where
  rows : Nat
  cols : Nat
  data : List Nat
deriving DecidableEq

/-- `StorageBackend._serialize` (`safetensors.torch.save`).  Modelled from the
spec: the safetensors container is an external library; per the spec it is a
self-describing container carrying shape/dtype metadata followed by the exact
little-endian element bytes.  The header is modelled as the two fixed-width
shape fields; each element contributes its exact 2-byte pattern. -/
def serialize (t : Tensor16) : List Nat :=
  natLE 8 t.rows ++ natLE 8 t.cols ++ (t.data.map (natLE 2)).flatten

/-- `StorageBackend._deserialize` (`safetensors.torch.load`).  Modelled from
the spec: parses the shape header, checks that the payload length matches the
declared shape, and decodes the exact element bytes; a malformed buffer is
`none`. -/
def deserialize (bs : List Nat) : Option Tensor16 :=
  let rows := leVal (bs.take 8)
  let rest := bs.drop 8
  let cols := leVal (rest.take 8)
  let body := rest.drop 8
  if body.length = 2 * (rows * cols) then
    some ⟨rows, cols, leChunks 2 body⟩
  else
    none

/-- Look a key up in the store: the most recent binding (redis `GET`). -/
def lookupKey [DecidableEq κ] : Store κ β → κ → Option β
  | [], _ => none
  | (k, v) :: s, key => if key = k then some v else lookupKey s key

/-- Write a binding (redis `SET`).  Prepending is observably the same as
overwriting, because `lookupKey` returns the most recent binding. -/
def setKey [DecidableEq κ] (s : Store κ β) (k : κ) (v : β) : Store κ β :=
  (k, v) :: s

/-- `StorageBackend.put`: hash the key, serialize the value, `SET`. -/
def put [DecidableEq κ] (H : List Nat → κ) (key : Tokens) (value : Tensor16)
    (s : Store κ (List Nat)) : Store κ (List Nat) :=
  setKey s (hashing H key) (serialize value)

/-- `StorageBackend.get`: hash the key, `GET`, and deserialize when a value
came back (`return self._deserialize(data) if data else None`; note an empty
byte string is falsy in the source's guard, hence the `isEmpty` branch). -/
def getStored [DecidableEq κ] (H : List Nat → κ) (key : Tokens)
    (s : Store κ (List Nat)) : Option Tensor16 :=
  match lookupKey s (hashing H key) with
  | some data => if data.isEmpty then none else deserialize data
  | none => none

/-- `StorageBackend.batch_put`: one pipeline of `SET`s over
`zip(keys, values)`, flushed once. -/
def batch_put [DecidableEq κ] (H : List Nat → κ) (keys : List Tokens)
    (values : List Tensor16) (s : Store κ (List Nat)) : Store κ (List Nat) :=
  (keys.zip values).foldl (fun st kv => setKey st (hashing H kv.1) (serialize kv.2)) s

/-!
The storaging engine (`storaging_engine.py`).  The backend stores
`_serialize value` and its `get` applies `_deserialize`; by the codec
round-trip theorem below these cancel on every value the engine writes, so the
engine-level model lets the store hold the latent value itself and elides the
byte codec.  The engine-level backend operations thread the store state
explicitly, so that which operations read and which write is part of the
model.
-/

/-- The engine's view of `StorageBackend.get`: returns the stored latent for
the hashed key (or `none`) together with the store state, which a `GET` leaves
unchanged. -/
def getVal [DecidableEq κ] (H : List Nat → κ) (key : Tokens)
    (s : Store κ (Latent α)) : Option (Latent α) × Store κ (Latent α) :=
  (lookupKey s (hashing H key), s)

/-- The engine's view of `StorageBackend.batch_put`: one pipeline of `SET`s
over `zip(keys, values)`. -/
def batch_putVal [DecidableEq κ] (H : List Nat → κ) (keys : List Tokens)
    (values : List (Latent α)) (s : Store κ (Latent α)) : Store κ (Latent α) :=
  (keys.zip values).foldl (fun st kv => setKey st (hashing H kv.1) kv.2) s

/-- The loop body of `LatentStoragingEngie.retrive`: for each chunk index `i`
in the given list, `get` the cumulative prefix `seq[0:(i+1)*chunk_size]` and
append the result to `retrived_list` when it is not `None`.  Returns the
accumulated list together with the threaded store state. -/
def retriveAux [DecidableEq κ] (H : List Nat → κ) (chunkSize : Nat)
    (seq : Tokens) : List Nat → Store κ (Latent α) →
    List (Latent α) × Store κ (Latent α)
  | [], s => ([], s)
  | i :: is, s =>
    let res := getVal H (seq.take ((i + 1) * chunkSize)) s
    let rest := retriveAux H chunkSize seq is res.2
    (match res.1 with
     | some stored => stored :: rest.1
     | none => rest.1, rest.2)

/-- `LatentStoragingEngie.retrive`: probe every complete chunk index
`i < len(seq) // chunk_size`, collect every hit, and return the concatenation
along dim 1 (`List.flatten`) when any hit occurred, else `None`.  (The loop does
not stop at a miss; that is exactly what the source does.) -/
def retrive [DecidableEq κ] (H : List Nat → κ) (chunkSize : Nat) (seq : Tokens)
    (s : Store κ (Latent α)) : Option (Latent α) × Store κ (Latent α) :=
  let res := retriveAux H chunkSize seq (List.range (seq.length / chunkSize)) s
  (if res.1.isEmpty then none else some res.1.flatten, res.2)

/-- The `chunked_seq` list built by `LatentStoragingEngie.store_seq`: the
cumulative prefixes `seq[0:(i + chunk_offset + 1) * chunk_size]` for
`i < chunk_num - chunk_offset`. -/
def storeChunkedSeq (chunkSize : Nat) (seq : Tokens) (restoredOffset : Nat) :
    List Tokens :=
  (List.range (seq.length / chunkSize - restoredOffset / chunkSize)).map
    (fun i => seq.take ((i + restoredOffset / chunkSize + 1) * chunkSize))

/-- The `chunked_value` list built by `LatentStoragingEngie.store_seq`: the
slices `value[:, i*chunk_size : (i+1)*chunk_size]` for
`i < chunk_num - chunk_offset`. -/
def storeChunkedValue (chunkSize : Nat) (value : Latent α)
    (chunkCount : Nat) : List (Latent α) :=
  (List.range chunkCount).map
    (fun i => (value.drop (i * chunkSize)).take chunkSize)

/-- `LatentStoragingEngie.store_seq`: build the cumulative-prefix keys and the
zero-indexed latent slices, then submit them in one `batch_put` — unless no
complete new chunk lies beyond the offset, in which case nothing is written. -/
def store_seq [DecidableEq κ] (H : List Nat → κ) (chunkSize : Nat)
    (seq : Tokens) (value : Latent α) (restoredOffset : Nat)
    (s : Store κ (Latent α)) : Store κ (Latent α) :=
  let chunkNum := seq.length / chunkSize
  let chunkOffset := restoredOffset / chunkSize
  let chunkedSeq := storeChunkedSeq chunkSize seq restoredOffset
  let chunkedValue := storeChunkedValue chunkSize value (chunkNum - chunkOffset)
  if chunkedSeq.isEmpty then s else batch_putVal H chunkedSeq chunkedValue s

/-- Modelled from the spec (§4.4 retrieve): the prefix of probe results before
the first miss — "the engine must stop probing at the first miss and must not
include any hit that occurs after a miss". -/
def specHits [DecidableEq κ] (H : List Nat → κ) (chunkSize : Nat)
    (seq : Tokens) (s : Store κ (Latent α)) : List Nat → List (Latent α)
  | [] => []
  | i :: is =>
    match lookupKey s (hashing H (seq.take ((i + 1) * chunkSize))) with
    | some v => v :: specHits H chunkSize seq s is
    | none => []

/-- Modelled from the spec (§4.4, §6): `retrieve` returns the concatenated
latent of the longest valid contiguous cached prefix (or absent) **and** the
number of tokens it covers. -/
def retrieveSpec [DecidableEq κ] (H : List Nat → κ) (chunkSize : Nat)
    (seq : Tokens) (s : Store κ (Latent α)) : Option (Latent α) × Nat :=
  let hits := specHits H chunkSize seq s (List.range (seq.length / chunkSize))
  (if hits.isEmpty then none else some hits.flatten, hits.length * chunkSize)

/-- The value the last `SET` in a pipeline of bindings leaves under `key`
(later pairs in the list win), or `none` when the pipeline never writes
`key`. -/
def lastWrite [DecidableEq κ] : List (κ × β) → κ → Option β
  | [], _ => none
  | (k, v) :: ps, key =>
    match lastWrite ps key with
    | some w => some w
    | none => if key = k then some v else none

/-! ## Byte-encoding lemmas -/

theorem natLE_length (w n : Nat) : (natLE w n).length = w := by
  induction w generalizing n with
  | zero => rfl
  | succ w ih => simp [natLE, ih]

theorem leVal_natLE (w n : Nat) : leVal (natLE w n) = n % 256 ^ w := by
  induction w generalizing n with
  | zero => simp [natLE, leVal, Nat.mod_one]
  | succ w ih =>
    rw [natLE, leVal, ih, pow_succ, Nat.mul_comm (256 ^ w) 256, Nat.mod_mul]

theorem leVal_natLE_of_lt {w n : Nat} (h : n < 256 ^ w) :
    leVal (natLE w n) = n := by
  rw [leVal_natLE, Nat.mod_eq_of_lt h]

theorem leChunks_nil (w : Nat) : leChunks w [] = [] := by
  rw [leChunks]
  simp

theorem leChunks_block (w : Nat) (hw : 0 < w) (c rest : List Nat)
    (hc : c.length = w) : leChunks w (c ++ rest) = leVal c :: leChunks w rest := by
  have hne : ¬((c ++ rest).isEmpty = true ∨ w = 0) := by
    simp only [List.isEmpty_iff, List.append_eq_nil, not_or]
    refine ⟨fun hx => ?_, by omega⟩
    rw [hx.1] at hc
    simp at hc
    omega
  rw [leChunks, dif_neg hne, List.take_left' hc, List.drop_left' hc]

theorem flatten_map_natLE_length (w : Nat) (l : List Nat) :
    ((l.map (natLE w)).flatten).length = w * l.length := by
  induction l with
  | nil => simp
  | cons n t ih =>
    simp only [List.map_cons, List.flatten_cons, List.length_append, ih,
      natLE_length, List.length_cons]
    ring

theorem leChunks_flatten (w : Nat) (hw : 0 < w) (l : List Nat) :
    leChunks w ((l.map (natLE w)).flatten) = l.map (fun n => n % 256 ^ w) := by
  induction l with
  | nil => simpa using leChunks_nil w
  | cons n t ih =>
    simp only [List.map_cons, List.flatten_cons]
    rw [leChunks_block w hw _ _ (natLE_length w n), leVal_natLE, ih]

theorem leChunks_flatten_of_bounded (w : Nat) (hw : 0 < w) (l : List Nat)
    (hb : ∀ x ∈ l, x < 256 ^ w) :
    leChunks w ((l.map (natLE w)).flatten) = l := by
  rw [leChunks_flatten w hw l]
  simpa using List.map_congr_left fun x hx => Nat.mod_eq_of_lt (hb x hx)

theorem tokenBytes_length (toks : Tokens) :
    (tokenBytes toks).length = 8 * toks.length :=
  flatten_map_natLE_length 8 toks

theorem tokenBytes_inj_of_bounded {t1 t2 : Tokens}
    (h1 : ∀ x ∈ t1, x < 256 ^ 8) (h2 : ∀ x ∈ t2, x < 256 ^ 8)
    (h : tokenBytes t1 = tokenBytes t2) : t1 = t2 := by
  have e1 : leChunks 8 (tokenBytes t1) = t1 :=
    leChunks_flatten_of_bounded 8 (by omega) t1 h1
  have e2 : leChunks 8 (tokenBytes t2) = t2 :=
    leChunks_flatten_of_bounded 8 (by omega) t2 h2
  rw [← e1, ← e2, h]

/-! ## Store / write-pipeline lemmas -/

theorem lastWrite_cons [DecidableEq κ] (k : κ) (v : β) (ps : List (κ × β))
    (key : κ) :
    lastWrite ((k, v) :: ps) key =
      (lastWrite ps key).or (if key = k then some v else none) := by
  simp only [lastWrite]
  cases lastWrite ps key <;> rfl

theorem lookupKey_setKey [DecidableEq κ] (s : Store κ β) (k : κ) (v : β)
    (key : κ) :
    lookupKey (setKey s k v) key = if key = k then some v else lookupKey s key := by
  rfl

theorem lookupKey_foldl_setKey [DecidableEq κ] (ps : List (κ × β))
    (s : Store κ β) (key : κ) :
    lookupKey (ps.foldl (fun st kv => setKey st kv.1 kv.2) s) key =
      (lastWrite ps key).or (lookupKey s key) := by
  induction ps generalizing s with
  | nil => simp [lastWrite]
  | cons p t ih =>
    obtain ⟨k, v⟩ := p
    rw [List.foldl_cons, ih, lastWrite_cons, lookupKey_setKey]
    by_cases hk : key = k <;>
      cases h2 : lastWrite t key <;> simp [hk, Option.or]

theorem lastWrite_append [DecidableEq κ] (l1 l2 : List (κ × β)) (key : κ) :
    lastWrite (l1 ++ l2) key = (lastWrite l2 key).or (lastWrite l1 key) := by
  induction l1 with
  | nil =>
    rw [List.nil_append]
    cases lastWrite l2 key <;> rfl
  | cons p t ih =>
    obtain ⟨k, v⟩ := p
    rw [List.cons_append, lastWrite_cons, lastWrite_cons, ih]
    cases lastWrite l2 key <;> cases lastWrite t key <;> rfl

theorem lastWrite_map_range [DecidableEq κ] (n j : Nat) (hj : j < n)
    (kf : Nat → κ) (vf : Nat → β)
    (hinj : ∀ a < n, ∀ b < n, kf a = kf b → a = b) :
    lastWrite ((List.range n).map fun i => (kf i, vf i)) (kf j) = some (vf j) := by
  induction n with
  | zero => omega
  | succ m ih =>
    rw [List.range_succ, List.map_append, lastWrite_append]
    by_cases hjm : j = m
    · subst hjm
      simp [lastWrite_cons, lastWrite]
    · have hlast : lastWrite [(kf m, vf m)] (kf j) = none := by
        simp only [lastWrite]
        rw [if_neg]
        intro hkk
        exact hjm (hinj j hj m (by omega) hkk)
      simp only [List.map_cons, List.map_nil]
      rw [hlast, Option.none_or]
      exact ih (by omega) (fun a ha b hb => hinj a (by omega) b (by omega))

theorem batch_putVal_eq_foldl [DecidableEq κ] (H : List Nat → κ)
    (keys : List Tokens) (values : List (Latent α)) (s : Store κ (Latent α)) :
    batch_putVal H keys values s =
      (((keys.zip values).map fun kv => (hashing H kv.1, kv.2)).foldl
        (fun st kv => setKey st kv.1 kv.2) s) := by
  rw [batch_putVal, List.foldl_map]

/-! ## Codec round-trip -/

theorem take8_of_append (c rest : List Nat) (hc : c.length = 8) :
    (c ++ rest).take 8 = c := List.take_left' hc

theorem serialize_header_data (t : Tensor16) :
    ((serialize t).take 8 = natLE 8 t.rows) ∧
      ((serialize t).drop 8).take 8 = natLE 8 t.cols ∧
      ((serialize t).drop 8).drop 8 = (t.data.map (natLE 2)).flatten := by
  have h1 : (natLE 8 t.rows).length = 8 := natLE_length 8 t.rows
  have h2 : (natLE 8 t.cols).length = 8 := natLE_length 8 t.cols
  refine ⟨?_, ?_, ?_⟩
  · rw [serialize, List.append_assoc, List.take_left' h1]
  · rw [serialize, List.append_assoc, List.drop_left' h1, List.take_left' h2]
  · rw [serialize, List.append_assoc, List.drop_left' h1, List.drop_left' h2]

/-! ## Engine-loop lemmas -/

theorem zip_take_min (l1 : List γ) (l2 : List δ) :
    l1.zip l2 =
      (l1.take (min l1.length l2.length)).zip (l2.take (min l1.length l2.length)) := by
  induction l1 generalizing l2 with
  | nil => simp
  | cons a t ih =>
    cases l2 with
    | nil => simp
    | cons b t2 =>
      simp only [List.zip_cons_cons, List.length_cons]
      have hmin : min (t.length + 1) (t2.length + 1) = min t.length t2.length + 1 := by
        omega
      rw [hmin, List.take_succ_cons, List.take_succ_cons, List.zip_cons_cons, ← ih]

theorem flatten_slices (cs k : Nat) (v : Latent α) :
    ((List.range k).map fun i => (v.drop (i * cs)).take cs).flatten =
      v.take (k * cs) := by
  induction k with
  | zero => simp
  | succ m ih =>
    rw [List.range_succ, List.map_append, List.flatten_append, ih]
    simp only [List.map_cons, List.map_nil, List.flatten_cons, List.flatten_nil,
      List.append_nil]
    rw [← List.take_add]
    congr 1
    ring

theorem retriveAux_state [DecidableEq κ] (H : List Nat → κ) (cs : Nat)
    (seq : Tokens) (is : List Nat) (s : Store κ (Latent α)) :
    (retriveAux H cs seq is s).2 = s := by
  induction is generalizing s with
  | nil => rfl
  | cons i t ih => simp only [retriveAux, getVal, ih]

theorem retriveAux_all_hits [DecidableEq κ] (H : List Nat → κ) (cs : Nat)
    (seq : Tokens) (g : Nat → Latent α) (is : List Nat) (s : Store κ (Latent α))
    (h : ∀ i ∈ is, lookupKey s (hashing H (seq.take ((i + 1) * cs))) = some (g i)) :
    (retriveAux H cs seq is s).1 = is.map g := by
  induction is with
  | nil => rfl
  | cons i t ih =>
    simp only [retriveAux, getVal, h i (List.mem_cons_self i t), List.map_cons]
    rw [ih (fun j hj => h j (List.mem_cons_of_mem i hj))]

/-! ## Claim theorems -/

/-- C5: decoding the encoding of any well-formed tensor of the supported
element type (16-bit elements, given as their raw bit patterns) and shape
yields the tensor bit-identical, with no intermediate widening: the element
bit patterns are carried through the byte string exactly. -/
theorem deserialize_serialize (t : Tensor16) (hr : t.rows < 256 ^ 8)
    (hc : t.cols < 256 ^ 8) (hlen : t.data.length = t.rows * t.cols)
    (hdata : ∀ x ∈ t.data, x < 256 ^ 2) :
    deserialize (serialize t) = some t := by
  obtain ⟨h1, h2, h3⟩ := serialize_header_data t
  simp only [deserialize, h1, h2, h3, leVal_natLE_of_lt hr, leVal_natLE_of_lt hc]
  rw [flatten_map_natLE_length, hlen, if_pos rfl]
  rw [leChunks_flatten_of_bounded 2 (by omega) t.data hdata]

/-- C5 witness: a concrete tensor round-trips bit-identically. -/
theorem deserialize_serialize_witness :
    deserialize (serialize ⟨1, 2, [5, 300]⟩) = some ⟨1, 2, [5, 300]⟩ :=
  deserialize_serialize ⟨1, 2, [5, 300]⟩ (by decide) (by decide) (by decide)
    (by decide)

/-- C6: chunk addressing is deterministic and pure (it is a function of the
prefix bytes alone), and — for an injective digest, modelling collision
resistance — two sequences produce the same address for chunk `i` exactly when
their first `(i+1)*chunk_size` tokens are identical. -/
theorem hashing_addr_iff (H : List Nat → κ) (hH : Function.Injective H)
    (chunkSize : Nat) (hcs : 0 < chunkSize) (s1 s2 : Tokens) (i : Nat)
    (h1 : ∀ t ∈ s1, t < 256 ^ 8) (h2 : ∀ t ∈ s2, t < 256 ^ 8)
    (hl1 : (i + 1) * chunkSize ≤ s1.length)
    (hl2 : (i + 1) * chunkSize ≤ s2.length) :
    hashing H (s1.take ((i + 1) * chunkSize)) =
        hashing H (s2.take ((i + 1) * chunkSize)) ↔
      s1.take ((i + 1) * chunkSize) = s2.take ((i + 1) * chunkSize) := by
  constructor
  · intro h
    exact tokenBytes_inj_of_bounded
      (fun x hx => h1 x (List.mem_of_mem_take hx))
      (fun x hx => h2 x (List.mem_of_mem_take hx)) (hH h)
  · intro h
    rw [hashing, hashing, h]

/-- C6 witness: two concrete sequences sharing their first chunk share its
address. -/
theorem hashing_addr_iff_witness :
    hashing (fun bs => bs) ([3, 4].take ((0 + 1) * 2)) =
        hashing (fun bs => bs) ([3, 4, 9].take ((0 + 1) * 2)) ↔
      [3, 4].take ((0 + 1) * 2) = [3, 4, 9].take ((0 + 1) * 2) :=
  hashing_addr_iff (fun bs => bs) (fun a b h => h) 2 (by decide) [3, 4]
    [3, 4, 9] 0 (by decide) (by decide) (by decide) (by decide)

/-- C8: for a key with no entry in the backend, `get` returns the explicit
absent result (`none`); a missing key never makes `get` fail. -/
theorem get_absent [DecidableEq κ] (H : List Nat → κ) (key : Tokens)
    (s : Store κ (List Nat)) (h : lookupKey s (hashing H key) = none) :
    getStored H key s = none := by
  simp only [getStored, h]

/-- C8 witness: `get` on the empty backend returns `none`. -/
theorem get_absent_witness :
    getStored (fun bs => bs) [1] ([] : Store (List Nat) (List Nat)) = none :=
  get_absent (fun bs => bs) [1] [] rfl

/-- C9: `retrive` performs only reads: the backend key-value state it returns
(threaded through every backend call it makes) is exactly the state it was
given. -/
theorem retrive_reads_only [DecidableEq κ] (H : List Nat → κ) (cs : Nat)
    (seq : Tokens) (s : Store κ (Latent α)) :
    (retrive H cs seq s).2 = s := by
  simp only [retrive]
  exact retriveAux_state H cs seq (List.range (seq.length / cs)) s

/-- C10: `batch_put` with key and value lists of unequal length raises no
error and stores exactly the pairwise-corresponding common prefix —
`zip` truncates to the shorter list, so exactly
`min (len keys) (len values)` pairs are written and the surplus elements are
silently ignored. -/
theorem batch_put_truncates [DecidableEq κ] (H : List Nat → κ)
    (keys : List Tokens) (values : List Tensor16) (s : Store κ (List Nat)) :
    batch_put H keys values s =
        batch_put H (keys.take (min keys.length values.length))
          (values.take (min keys.length values.length)) s ∧
      (keys.zip values).length = min keys.length values.length := by
  constructor
  · rw [batch_put, batch_put, ← zip_take_min]
  · exact List.length_zip keys values

/-- C7: storing the same `(sequence, latent)` pair twice with the same
`restored_offset` leaves the backend observably equivalent to storing it once:
every subsequent lookup of any key returns the same result. -/
theorem store_seq_idem [DecidableEq κ] (H : List Nat → κ) (cs : Nat)
    (seq : Tokens) (value : Latent α) (ro : Nat) (s : Store κ (Latent α))
    (key : κ) :
    lookupKey (store_seq H cs seq value ro (store_seq H cs seq value ro s)) key =
      lookupKey (store_seq H cs seq value ro s) key := by
  by_cases he : (storeChunkedSeq cs seq ro).isEmpty = true
  · simp only [store_seq, if_pos he]
  · simp only [store_seq, if_neg he, batch_putVal_eq_foldl, lookupKey_foldl_setKey]
    cases lastWrite
        (((storeChunkedSeq cs seq ro).zip
            (storeChunkedValue cs value (seq.length / cs - ro / cs))).map
          fun kv => (hashing H kv.1, kv.2)) key with
    | some v => rfl
    | none => rfl

/-- C4: for a `restored_offset` that is a multiple of `chunk_size`
(`c * chunk_size`), `store_seq` is a no-op when no complete new chunk lies
beyond the offset, and otherwise submits in one `batch_put` exactly one pair
per chunk index `i` from `chunk_offset = c` up to the last complete chunk:
the key over the cumulative prefix `seq[0:(i+1)*chunk_size]` paired with the
zero-indexed slice of `new_latent` for chunk `i - c`. -/
theorem store_seq_one_batch [DecidableEq κ] (H : List Nat → κ) (cs : Nat)
    (hcs : 0 < cs) (seq : Tokens) (value : Latent α) (c : Nat)
    (s : Store κ (Latent α)) :
    store_seq H cs seq value (c * cs) s =
      if seq.length / cs ≤ c then s
      else
        batch_putVal H
          ((List.range' c (seq.length / cs - c)).map fun i =>
            seq.take ((i + 1) * cs))
          ((List.range (seq.length / cs - c)).map fun j =>
            (value.drop (j * cs)).take cs) s := by
  have hdiv : c * cs / cs = c := Nat.mul_div_cancel c hcs
  by_cases hkc : seq.length / cs ≤ c
  · have h0 : seq.length / cs - c = 0 := by omega
    have he : (storeChunkedSeq cs seq (c * cs)).isEmpty = true := by
      simp [storeChunkedSeq, hdiv, h0]
    simp only [store_seq, if_pos he, if_pos hkc]
  · have hne : ¬(storeChunkedSeq cs seq (c * cs)).isEmpty = true := by
      simp only [storeChunkedSeq, hdiv, List.isEmpty_iff, List.map_eq_nil_iff,
        List.range_eq_nil]
      omega
    rw [store_seq]
    simp only [if_neg hne, if_neg hkc, hdiv]
    have hkeys : storeChunkedSeq cs seq (c * cs) =
        (List.range' c (seq.length / cs - c)).map fun i =>
          seq.take ((i + 1) * cs) := by
      rw [storeChunkedSeq, hdiv, List.range'_eq_map_range, List.map_map]
      apply List.map_congr_left
      intro a ha
      simp only [Function.comp_apply]
      congr 2
      omega
    rw [hkeys, storeChunkedValue]

/-- C3: after `store_seq(seq, value, 0)` on a sequence with at least one
complete chunk (`k = len(seq) // chunk_size ≥ 1`) and a latent covering at
least `k*chunk_size` positions, `retrive(seq)` returns exactly the first
`k*chunk_size`-position span of the latent along the sequence-position axis.
(The source returns no `tokens_covered` count alongside it; see the results
for the divergence.) -/
theorem retrive_after_store [DecidableEq κ] (H : List Nat → κ)
    (hH : Function.Injective H) (cs : Nat) (hcs : 0 < cs) (seq : Tokens)
    (value : Latent α) (s : Store κ (Latent α)) (hk : cs ≤ seq.length)
    (hval : seq.length / cs * cs ≤ value.length) :
    (retrive H cs seq (store_seq H cs seq value 0 s)).1 =
      some (value.take (seq.length / cs * cs)) := by
  obtain ⟨k, hkdef⟩ : ∃ k, seq.length / cs = k := ⟨_, rfl⟩
  have hk1 : 1 ≤ k := hkdef ▸ (Nat.one_le_div_iff hcs).mpr hk
  have hkcs : k * cs ≤ seq.length := hkdef ▸ Nat.div_mul_le_self seq.length cs
  rw [hkdef] at hval
  rw [hkdef]
  -- the store after `store_seq` is one batched pipeline of the k chunk pairs
  have hc0 : ¬((List.range k).map fun i => seq.take ((i + 1) * cs)).isEmpty
      = true := by
    simp only [List.isEmpty_iff, List.map_eq_nil_iff, List.range_eq_nil]
    omega
  have hstore : store_seq H cs seq value 0 s =
      batch_putVal H ((List.range k).map fun i => seq.take ((i + 1) * cs))
        ((List.range k).map fun i => (value.drop (i * cs)).take cs) s := by
    rw [store_seq]
    simp only [storeChunkedSeq, storeChunkedValue, Nat.zero_div, Nat.sub_zero,
      Nat.add_zero, hkdef]
    rw [if_neg hc0]
  -- distinct chunk prefixes have distinct addresses (injective digest over
  -- distinct-length byte strings)
  have hinj : ∀ a < k, ∀ b < k,
      hashing H (seq.take ((a + 1) * cs)) = hashing H (seq.take ((b + 1) * cs)) →
        a = b := by
    intro a ha b hb hab
    have hb1 : tokenBytes (seq.take ((a + 1) * cs)) =
        tokenBytes (seq.take ((b + 1) * cs)) := hH hab
    have hla : (seq.take ((a + 1) * cs)).length = (a + 1) * cs :=
      List.length_take_of_le
        (le_trans (Nat.mul_le_mul_right cs (by omega)) hkcs)
    have hlb : (seq.take ((b + 1) * cs)).length = (b + 1) * cs :=
      List.length_take_of_le
        (le_trans (Nat.mul_le_mul_right cs (by omega)) hkcs)
    have hlen : 8 * ((a + 1) * cs) = 8 * ((b + 1) * cs) := by
      rw [← hla, ← hlb, ← tokenBytes_length, ← tokenBytes_length, hb1]
    have heq : (a + 1) * cs = (b + 1) * cs := by omega
    have := Nat.eq_of_mul_eq_mul_right hcs heq
    omega
  -- every probed chunk key hits its own freshly written slice
  have hkey : ∀ j ∈ List.range k,
      lookupKey (store_seq H cs seq value 0 s)
          (hashing H (seq.take ((j + 1) * cs))) =
        some ((value.drop (j * cs)).take cs) := by
    intro j hj
    have hjk : j < k := List.mem_range.mp hj
    rw [hstore, batch_putVal_eq_foldl, List.zip_map', List.map_map,
      lookupKey_foldl_setKey]
    have hlw := lastWrite_map_range k j hjk
      (fun i => hashing H (seq.take ((i + 1) * cs)))
      (fun i => (value.drop (i * cs)).take cs) hinj
    simp only [Function.comp_def]
    rw [hlw]
    rfl
  -- run the retrieval loop: every probe hits
  have haux := retriveAux_all_hits H cs seq
    (fun i => (value.drop (i * cs)).take cs) (List.range k)
    (store_seq H cs seq value 0 s) hkey
  simp only [retrive, hkdef]
  rw [haux]
  have hne2 : ¬((List.range k).map fun i => (value.drop (i * cs)).take cs).isEmpty
      = true := by
    simp only [List.isEmpty_iff, List.map_eq_nil_iff, List.range_eq_nil]
    omega
  rw [if_neg hne2, flatten_slices]

/-- C3 witness: a concrete store-then-retrieve round trip. -/
theorem retrive_after_store_witness :
    (retrive (fun bs => bs) 1 [5]
        (store_seq (fun bs => bs) 1 [5] [7] 0 [])).1 =
      some ([7].take ([5].length / 1 * 1)) :=
  retrive_after_store (fun bs => bs) (fun a b h => h) 1 (by decide) [5] [7] []
    (by decide) (by decide)

/-- C4 witness: a concrete `store_seq` at offset `0 * chunk_size` reduces to
the single batched submission of both complete chunks. -/
theorem store_seq_one_batch_witness :
    store_seq (fun bs => bs) 2 [1, 2, 3] ([10, 20] : Latent Nat) (0 * 2) [] =
      if [1, 2, 3].length / 2 ≤ 0 then []
      else
        batch_putVal (fun bs => bs)
          ((List.range' 0 ([1, 2, 3].length / 2 - 0)).map fun i =>
            [1, 2, 3].take ((i + 1) * 2))
          ((List.range ([1, 2, 3].length / 2 - 0)).map fun j =>
            (([10, 20] : Latent Nat).drop (j * 2)).take 2) [] :=
  store_seq_one_batch (fun bs => bs) 2 (by decide) [1, 2, 3] [10, 20] 0 []

/-- C1: the source's `retrive` does NOT stop at the first chunk-index miss.
Concretely, with `chunk_size = 1` and a backend holding only the address of
the two-token prefix `[0, 1]`, chunk 0 (prefix `[0]`) is a miss, yet
`retrive([0, 1])` returns the chunk-1 latent instead of absent: a hit that
occurs after a miss is included in the result. -/
theorem retrive_includes_hit_after_miss :
    (retrive (fun bs => bs) 1 [0, 1]
        [(tokenBytes [0, 1], ([42] : Latent Nat))]).1 = some [42] ∧
      lookupKey [(tokenBytes [0, 1], ([42] : Latent Nat))]
        (hashing (fun bs => bs) ([0, 1].take ((0 + 1) * 1))) = none := by
  decide

/-- C2: the source's `retrive` returns a bare tensor-or-`None` — no
`tokens_covered` count — and concatenates every hit rather than the longest
valid contiguous cached prefix.  Concretely, with `chunk_size = 1` and hits at
chunks 0 and 2 but a miss at chunk 1, the code splices the non-contiguous
chunks into `[10, 30]`, whereas the spec-modelled `retrieveSpec` returns the
one-chunk prefix `[10]` with `tokens_covered = 1`. -/
theorem retrive_vs_retrieveSpec :
    (retrive (fun bs => bs) 1 [0, 1, 2]
        [(tokenBytes [0], ([10] : Latent Nat)),
          (tokenBytes [0, 1, 2], ([30] : Latent Nat))]).1 = some [10, 30] ∧
      retrieveSpec (fun bs => bs) 1 [0, 1, 2]
        [(tokenBytes [0], ([10] : Latent Nat)),
          (tokenBytes [0, 1, 2], ([30] : Latent Nat))] = (some [10], 1) := by
  decide
